import Mathlib

/-!
A verification development for `pamuk.py`, an interactive Android
package-removal utility.  The Python source is shallowly embedded below:
subprocess output and operator answers become explicit inputs, file and
device side effects become explicit outputs, and every function is a pure
Lean definition mirroring the corresponding Python function line by line.
Timestamps (Python `datetime` objects) are encoded injectively as the
number of milliseconds their civil components denote when read against
the epoch, so equality and ordering of encodings coincide with equality
and ordering of the `datetime` values.
-/

namespace Pamuk

/-! ## Character-level string utilities (Python `str` semantics) -/

/-- Python `s.split(sep)` for a one-character separator, on the char list:
splits at every occurrence, keeping empty pieces. -/
def splitChar (sep : Char) : List Char → List (List Char)
  | [] => [[]]
  | c :: cs =>
    match splitChar sep cs with
    | [] => [[]]
    | g :: gs => if c = sep then [] :: g :: gs else (c :: g) :: gs

/-- Whether the char list `cs` begins with the pattern `pat`
(Python `str.startswith`). -/
def startsWithChars : List Char → List Char → Bool
  | _, [] => true
  | [], _ :: _ => false
  | c :: cs, p :: ps => c = p && startsWithChars cs ps

/-- Whether `pat` occurs as a contiguous run inside `hay`
(Python `in` on strings). -/
def containsChars : List Char → List Char → Bool
  | [], pat => decide (pat = [])
  | c :: cs, pat => startsWithChars (c :: cs) pat || containsChars cs pat

/-- The ASCII whitespace set Python string operations (`str.strip()`,
`str.split()`, `int()`, the `\s` class) treat as space:
` `, `\t`, `\n`, `\r`, `\x0b`, `\x0c`.  (Their non-ASCII whitespace is
outside the model, which covers ASCII text.) -/
def pyIsSpace (c : Char) : Bool :=
  c.isWhitespace || c = '\x0b' || c = '\x0c'

/-- Python `str.strip()`: remove leading and trailing whitespace. -/
def stripChars (cs : List Char) : List Char :=
  ((cs.dropWhile pyIsSpace).reverse.dropWhile pyIsSpace).reverse

/-- Split at every character satisfying `p`, keeping empty pieces. -/
def splitByPred (p : Char → Bool) : List Char → List (List Char)
  | [] => [[]]
  | c :: cs =>
    match splitByPred p cs with
    | [] => [[]]
    | g :: gs => if p c then [] :: g :: gs else (c :: g) :: gs

/-! ## Catalogue data model

`catalogue.yaml` holds a mapping from category name to a list of package
identifiers.  Python dicts preserve insertion order, so the mapping is
embedded as an association list. -/

/-- A catalogue: insertion-ordered mapping from category name to the
ordered list of package identifiers in that category. -/
abbrev Catalogue := List (String × List String)

/-! ## `get_installed_packages` (pamuk.py lines 46-58) -/

/-- `line.split(':')[1].strip()` applied to one line of `pm list packages`
output.  The subscript `[1]` exists only when the line contains at least
one colon; otherwise Python raises an uncaught `IndexError`, modelled as
`none`. -/
def parsePackageLine (line : String) : Option String :=
  match splitChar ':' line.data with
  | _ :: x :: _ => some (String.mk (stripChars x))
  | _ => none

/-- The list comprehension in `get_installed_packages`: an `IndexError`
raised on any single line propagates out of the whole comprehension (and
out of the function, whose `except` clause only catches
`CalledProcessError`), so one malformed line aborts the entire listing. -/
def get_installed_packages : List String → Option (List String)
  | [] => some []
  | l :: ls =>
    match parsePackageLine l, get_installed_packages ls with
    | some id, some ids => some (id :: ids)
    | _, _ => none

/-! ## `get_current_app` (pamuk.py lines 81-111) -/

/-- The whitespace-separated tokens of the stripped dumpsys output:
Python `str.split()` with no argument splits on every whitespace
character (space, tab, newline, ...) and drops empty pieces, which
collapses whitespace runs. -/
def focusTokens (stdout : String) : List (List Char) :=
  (splitByPred pyIsSpace (stripChars stdout.data)).filter (fun t => t ≠ [])

/-- `get_current_app`, as a function of the raw stdout of the focus query
(a failed query or a query with no output yields empty stdout, the
`if result.stdout:` guard).  When the output mentions `mCurrentFocus=`,
the first whitespace-separated token containing a `/` is split on `/`
and the part before the first `/` is returned; otherwise `None`. -/
def get_current_app (stdout : String) : Option String :=
  if stdout = "" then none
  else
    let output := stripChars stdout.data
    if containsChars output "mCurrentFocus=".data then
      match (focusTokens stdout).find? (fun part => part.contains '/') with
      | some part => some (String.mk ((splitChar '/' part).headD []))
      | none => none
    else none

/-! ## `update_catalogue` (pamuk.py lines 113-132) -/

/-- Assignment `data['catalogue'][category] = ids` on a Python dict whose
key `category` is already present (or appended at the end otherwise):
replaces the first binding in place. -/
def setCat : Catalogue → String → List String → Catalogue
  | [], c, ids => [(c, ids)]
  | (c', ids') :: t, c, ids =>
    if c' = c then (c, ids) :: t else (c', ids') :: setCat t c ids

/-- `update_catalogue(package, category)`: create the category with an
empty list when absent; when `package` is not yet in the category's list,
append it at the end and rewrite `catalogue.yaml`; when it is already
present, change nothing and do not write the file.  Returns the new
in-memory catalogue together with whether the file was rewritten. -/
def update_catalogue (ctl : Catalogue) (package : String) (category : String) :
    Catalogue × Bool :=
  let data := if (ctl.lookup category).isSome then ctl else ctl ++ [(category, [])]
  let pkgs := (data.lookup category).getD []
  if package ∈ pkgs then (data, false)
  else (setCat data category (pkgs ++ [package]), true)

/-! ## Catalogue-mode match computation (`main`, pamuk.py lines 486-516) -/

/-- The nested loop in `main`:
`for category, packages in catalogue.items(): for package in packages:
if package in installed_packages: matches.append((category, package))`. -/
def mainMatches (catalogue : Catalogue) (installed : List String) :
    List (String × String) :=
  catalogue.flatMap fun cp =>
    (cp.2.filter fun package => installed.contains package).map
      fun package => (cp.1, package)

/-- The uninstall calls issued by catalogue mode: none when there are no
matches (the flow offers hunter mode and exits) or when the operator does
not confirm; otherwise one `pm uninstall` call per match, in match
order. -/
def mainUninstallCalls (catalogue : Catalogue) (installed : List String)
    (confirmed : Bool) : List String :=
  let found := mainMatches catalogue installed
  if found = [] then []
  else if confirmed then found.map Prod.snd else []

/-! ## `hunter_mode` (pamuk.py lines 134-156) -/

/-- One iteration of the hunter-mode polling loop, as a function of the
observed foreground package (`None` when `get_current_app` returned
`None`).  The Python guard is `if current_package and current_package !=
last_package:` — the empty string is falsy.  Inside the guard,
`last_package` is assigned *before* the operator is prompted, so the
update does not depend on the operator's answer or on the uninstall
outcome.  Returns the new `last_package` and whether a prompt was
shown. -/
def hunterTick (last : Option String) (current : Option String) :
    Option String × Bool :=
  match current with
  | some p => if p ≠ "" ∧ some p ≠ last then (some p, true) else (last, false)
  | none => (last, false)

/-- The packages the operator is prompted about, in order, when hunter
mode runs from state `last` over a trace of foreground observations. -/
def hunterRun (last : Option String) : List (Option String) → List String
  | [] => []
  | obs :: rest =>
    match hunterTick last obs with
    | (l2, true) =>
      (match obs with | some p => [p] | none => []) ++ hunterRun l2 rest
    | (l2, false) => hunterRun l2 rest

/-! ## Timestamp parsing in `get_package_details` (pamuk.py lines 183-204)

Python `datetime` values are naive (timezone-free) civil timestamps; a
value is encoded injectively as the integer number of milliseconds its
civil components denote when read against the epoch, so equality and
ordering of encodings agree with `datetime` equality and ordering.
`datetime.fromtimestamp` converts an epoch instant to the local civil
time; the ambient local timezone is modelled as a fixed offset `tzMs`
in milliseconds. -/

/-- Gregorian leap-year test. -/
def isLeap (y : Nat) : Bool := (y % 4 = 0 && y % 100 ≠ 0) || y % 400 = 0

/-- Days in month `m` of year `y` (`m` between 1 and 12). -/
def daysInMonth (y m : Nat) : Nat :=
  match m with
  | 1 => 31 | 2 => if isLeap y then 29 else 28 | 3 => 31 | 4 => 30
  | 5 => 31 | 6 => 30 | 7 => 31 | 8 => 31
  | 9 => 30 | 10 => 31 | 11 => 30 | 12 => 31
  | _ => 0

/-- Day number of the civil date `y-m-d` (years from 1), counted so that
`0001-03-01` is day 306; the epoch `1970-01-01` is day 719468. -/
def civilDayNumber (y m d : Nat) : Nat :=
  let y' := if m ≤ 2 then y - 1 else y
  let era := y' / 400
  let yoe := y' % 400
  let mp := (m + 9) % 12
  let doy := (153 * mp + 2) / 5 + d - 1
  let doe := yoe * 365 + yoe / 4 - yoe / 100 + doy
  era * 146097 + doe

/-- Encoding of the `datetime` with the given civil components, as
milliseconds relative to the epoch `1970-01-01 00:00:00`. -/
def datetimeCode (y m d hh mi ss : Nat) : Int :=
  ((civilDayNumber y m d : Int) - 719468) * 86400000
    + ((hh * 3600 + mi * 60 + ss) * 1000 : Nat)

/-- Greedily read up to `maxLen` leading decimal digits (at least one)
from the char list, returning their value and the remaining chars. -/
def takeDigitsAux : Nat → Nat → List Char → Nat × List Char
  | 0, acc, cs => (acc, cs)
  | _ + 1, acc, [] => (acc, [])
  | n + 1, acc, c :: cs =>
    if c.isDigit then takeDigitsAux n (acc * 10 + (c.toNat - 48)) cs
    else (acc, c :: cs)

/-- `takeDigits maxLen cs` fails unless `cs` starts with a digit. -/
def takeDigits (maxLen : Nat) (cs : List Char) : Option (Nat × List Char) :=
  match cs with
  | c :: _ => if c.isDigit then some (takeDigitsAux maxLen 0 cs) else none
  | [] => none

/-- Consume one expected literal character. -/
def expectChar (c : Char) : List Char → Option (List Char)
  | c' :: cs => if c' = c then some cs else none
  | [] => none

/-- Consume one or more whitespace characters: CPython `_strptime`
rewrites every whitespace run in the format to the regular expression
`\s+`, so the space in `%Y-%m-%d %H:%M:%S` matches any nonempty
whitespace run of the input. -/
def expectWs : List Char → Option (List Char)
  | c :: cs => if pyIsSpace c then some (cs.dropWhile pyIsSpace) else none
  | [] => none

/-- The `%Y` field: CPython `_strptime` compiles it to `\d\d\d\d`, so
exactly four digits are consumed. -/
def takeYear4 : List Char → Option (Nat × List Char)
  | a :: b :: c :: d :: rest =>
    if a.isDigit && b.isDigit && c.isDigit && d.isDigit then
      some ((((a.toNat - 48) * 10 + (b.toNat - 48)) * 10 + (c.toNat - 48)) * 10
        + (d.toNat - 48), rest)
    else none
  | _ => none

/-- `datetime.datetime.strptime(s, '%Y-%m-%d %H:%M:%S')` after the
year: format fields of at most 4 (year) or 2 digits separated by the
literal separators, the whole string consumed, and the components a
valid `datetime` (year 1-9999, month 1-12, day within the month, time
fields in range); any failure raises `ValueError`, modelled as
`none`. -/
def strptimeTail (y : Nat) (r1 : List Char) : Option Int :=
  match expectChar '-' r1 with
  | none => none
  | some r2 =>
  match takeDigits 2 r2 with
  | none => none
  | some (m, r3) =>
  match expectChar '-' r3 with
  | none => none
  | some r4 =>
  match takeDigits 2 r4 with
  | none => none
  | some (d, r5) =>
  match expectWs r5 with
  | none => none
  | some r6 =>
  match takeDigits 2 r6 with
  | none => none
  | some (hh, r7) =>
  match expectChar ':' r7 with
  | none => none
  | some r8 =>
  match takeDigits 2 r8 with
  | none => none
  | some (mi, r9) =>
  match expectChar ':' r9 with
  | none => none
  | some r10 =>
  match takeDigits 2 r10 with
  | none => none
  | some (ss, r11) =>
  if r11 = [] ∧ 1 ≤ y ∧ y ≤ 9999 ∧ 1 ≤ m ∧ m ≤ 12 ∧ 1 ≤ d ∧ d ≤ daysInMonth y m
      ∧ hh ≤ 23 ∧ mi ≤ 59 ∧ ss ≤ 59 then
    some (datetimeCode y m d hh mi ss)
  else none

/-- `datetime.datetime.strptime(s, '%Y-%m-%d %H:%M:%S')`: see
`strptimeTail` for the stages after the year field.  The model covers
ASCII text: CPython's `\d` additionally matches non-ASCII Unicode
decimal digits, which no dump output contains. -/
def strptimeYmdHms (s : String) : Option Int :=
  match takeYear4 s.data with
  | none => none
  | some (y, r1) => strptimeTail y r1

/-- The digit-run grammar of Python `int()`: digits optionally grouped
by single underscores placed between digits (`1_000` is accepted,
`_1`, `1_` and `1__0` are not).  The flag records whether the previous
character was a digit, so it also enforces the final-digit rule. -/
def digitsRun (prevDigit : Bool) : List Char → Bool
  | [] => prevDigit
  | c :: rest =>
    if c.isDigit then digitsRun true rest
    else if c = '_' then prevDigit && digitsRun false rest
    else false

/-- Value of an underscore-grouped digit run (underscores are
ignored). -/
def pyIntDigits (cs : List Char) : Option Nat :=
  if digitsRun false cs then
    some ((cs.filter Char.isDigit).foldl (fun a c => a * 10 + (c.toNat - 48)) 0)
  else none

/-- Python `int(s)`: strip surrounding whitespace, then an optional sign
followed by an underscore-grouped digit run; anything else raises
`ValueError` (`none`).  The model covers ASCII text: `int()` also
accepts non-ASCII Unicode decimal digits, which no dump output
contains. -/
def pyIntOfStr (s : String) : Option Int :=
  match stripChars s.data with
  | [] => none
  | c :: rest =>
    if c = '+' then (pyIntDigits rest).map (fun n => (n : Int))
    else if c = '-' then (pyIntDigits rest).map (fun n => -(n : Int))
    else (pyIntDigits (c :: rest)).map (fun n => (n : Int))

/-- `datetime.datetime.fromtimestamp(t / 1000)` for `t` milliseconds
since the epoch: the local civil time of that instant, under the fixed
local offset `tzMs`.  (The platform range limits of `fromtimestamp`,
whose `OSError` the source catches and turns into the same `None` as any
other unparseable value, are not modelled; every timestamp appearing in
the theorems below is in range.) -/
def fromtimestampNaive (tzMs t : Int) : Int := t + tzMs

/-- The timestamp-parsing logic of `get_package_details` (applied
verbatim to both `firstInstallTime=` and `lastUpdateTime=` values): first
try the formatted parse, on `ValueError` fall back to reading the value
as epoch milliseconds; if both fail the field is left untouched. -/
def parse_timestamp (tzMs : Int) (s : String) : Option Int :=
  match strptimeYmdHms s with
  | some v => some v
  | none => (pyIntOfStr s).map (fromtimestampNaive tzMs)

/-! ## `get_package_details` (pamuk.py lines 158-237) -/

/-- The per-package details record built by `get_package_details`. -/
structure PkgDetails where
  package : String
  label : String
  version : String
  install_time : Option Int
  update_time : Option Int
deriving DecidableEq, Repr

/-- The default details record before the dump output is scanned. -/
def initDetails (package : String) : PkgDetails :=
  { package := package, label := package, version := "Unknown",
    install_time := none, update_time := none }

/-- Scanning one (stripped) line of the package dump: `versionName=`,
`firstInstallTime=` and `lastUpdateTime=` markers update the record;
a timestamp that fails to parse leaves the previous field value. -/
def scanDumpLine (tzMs : Int) (d : PkgDetails) (raw : String) : PkgDetails :=
  let l := stripChars raw.data
  if startsWithChars l "versionName=".data then
    { d with version := String.mk (l.drop 12) }
  else if startsWithChars l "firstInstallTime=".data then
    match parse_timestamp tzMs (String.mk (l.drop 17)) with
    | some v => { d with install_time := some v }
    | none => d
  else if startsWithChars l "lastUpdateTime=".data then
    match parse_timestamp tzMs (String.mk (l.drop 15)) with
    | some v => { d with update_time := some v }
    | none => d
  else d

/-- `get_package_details(device, package)` as a function of the dump
output (`none` when the dump subprocess fails, the only case in which the
function returns `None`) and of the result of the best-effort
label lookup (`aaptLabel`, which on any failure leaves the label equal to
the package identifier). -/
def get_package_details (tzMs : Int) (package : String)
    (dumpResult : Option (List String)) (aaptLabel : Option String) :
    Option PkgDetails :=
  dumpResult.map fun lines =>
    let d := lines.foldl (scanDumpLine tzMs) (initDetails package)
    match aaptLabel with
    | some lab => { d with label := lab }
    | none => d

/-! ## `get_all_apps_with_details` (pamuk.py lines 239-261) -/

/-- The reserved system identifier starts filtered out of the listing. -/
def reservedStarts : List String :=
  ["com.android.", "com.google.android.", "android."]

/-- `not pkg.startswith(('com.android.', 'com.google.android.',
'android.'))`. -/
def isUserPackage (pkg : String) : Bool :=
  !(reservedStarts.any fun r => startsWithChars pkg.data r.data)

/-- Sort key: the install time (present on every element that survives
the `details['install_time']` truthiness filter). -/
def instKey (d : PkgDetails) : Int := d.install_time.getD 0

/-- Comparison used for the descending stable sort
(`sort(key=..., reverse=True)`). -/
def descLe (a b : PkgDetails) : Bool := decide (instKey b ≤ instKey a)

/-- `get_all_apps_with_details(device)` as a function of the installed
package list and of the per-package result of `get_package_details`:
drop reserved-start packages, fetch details, keep only records whose
fetch succeeded and whose install timestamp is non-null, and stably sort
by install timestamp descending. -/
def get_all_apps_with_details (details : String → Option PkgDetails)
    (installed : List String) : List PkgDetails :=
  let user_packages := installed.filter isUserPackage
  let apps_with_details := user_packages.filterMap fun pkg =>
    match details pkg with
    | some d => if d.install_time.isSome then some d else none
    | none => none
  apps_with_details.mergeSort descLe

/-! ## `list_apps_by_install_date` (pamuk.py lines 263-392) -/

/-- `items_per_page = 10`; `total_pages = (len(apps) + items_per_page -
1) // items_per_page`. -/
def totalPages (apps : List PkgDetails) : Nat := (apps.length + 10 - 1) / 10

/-- The mutable state of the date-list loop: the in-memory app list, the
1-based current page, and the in-memory catalogue (mutated through
`update_catalogue` when an uninstall succeeds). -/
structure ListState where
  apps : List PkgDetails
  page : Nat
  catalogue : Catalogue
deriving DecidableEq

/-- One round of operator input to the date-list loop.  `idx` is the
1-based index typed at the number prompt (`none` when `int(input())`
raised `ValueError`); `confirmed` is the y/N answer; `pullRes` is the
value returned by `pull_apk` (`none` for its `False` failure value, the
saved path otherwise); `ok` is the outcome of the `pm uninstall` call.
`other` covers every unrecognized menu choice, which only re-displays the
option list. -/
inductive ListEvent where
  | next
  | prev
  | quit
  | uninstall (idx : Option Int) (confirmed : Bool) (ok : Bool)
  | backupUninstall (idx : Option Int) (confirmed : Bool)
      (pullRes : Option String) (ok : Bool)
  | other
deriving DecidableEq

/-- Shared tail of the two uninstall flows once the `pm uninstall` call
has succeeded: add the package to the catalogue under the default
`hunter` category, remove the entry, recompute `total_pages`, and clamp
the current page (only when the recomputed page count is positive). -/
def afterUninstall (s : ListState) (i : Nat) (pkg : String) : ListState :=
  let ctl2 := (update_catalogue s.catalogue pkg "hunter").1
  let apps2 := s.apps.eraseIdx i
  let tp2 := totalPages apps2
  let page2 := if s.page > tp2 ∧ tp2 > 0 then tp2 else s.page
  { apps := apps2, page := page2, catalogue := ctl2 }

/-- One iteration of the date-list loop body: the next state together
with the list of `pm uninstall` calls issued during the iteration. -/
def list_step (s : ListState) (ev : ListEvent) : ListState × List String :=
  match ev with
  | .next =>
    if s.page < totalPages s.apps then ({ s with page := s.page + 1 }, [])
    else (s, [])
  | .prev =>
    if s.page > 1 then ({ s with page := s.page - 1 }, [])
    else (s, [])
  | .quit => (s, [])
  | .other => (s, [])
  | .uninstall idx confirmed ok =>
    match idx with
    | none => (s, [])
    | some n =>
      if 1 ≤ n ∧ n ≤ (s.apps.length : Int) then
        if confirmed then
          if ok then
            (afterUninstall s (n.toNat - 1)
                (s.apps.getD (n.toNat - 1) (initDetails "")).package,
              [(s.apps.getD (n.toNat - 1) (initDetails "")).package])
          else (s, [(s.apps.getD (n.toNat - 1) (initDetails "")).package])
        else (s, [])
      else (s, [])
  | .backupUninstall idx confirmed pullRes ok =>
    match idx with
    | none => (s, [])
    | some n =>
      if 1 ≤ n ∧ n ≤ (s.apps.length : Int) then
        if confirmed then
          if (pullRes.getD "") ≠ "" then
            if ok then
              (afterUninstall s (n.toNat - 1)
                  (s.apps.getD (n.toNat - 1) (initDetails "")).package,
                [(s.apps.getD (n.toNat - 1) (initDetails "")).package])
            else (s, [(s.apps.getD (n.toNat - 1) (initDetails "")).package])
          else (s, [])
        else (s, [])
      else (s, [])

/-! ## Catalogue persistence (`load_catalogue` lines 18-26,
`yaml.dump` in `update_catalogue` lines 125-126)

The catalogue file is YAML; the model covers exactly the block-style
subset that `yaml.dump(data, default_flow_style=False, sort_keys=False)`
emits for catalogue data whose category names and identifiers are plain
scalars: a `catalogue:` header, each category as `  name:`, each
identifier as `  - id`.  The file is modelled as its list of lines. -/

/-- A name that PyYAML writes as an unquoted plain scalar and that the
line grammar below classifies unambiguously: nonempty, made of
alphanumerics, `.`, `_` and `-`, and not beginning with `-`. -/
def plainChar (c : Char) : Bool := c.isAlphanum || c = '.' || c = '_' || c = '-'

/-- See `plainChar`. -/
def plainName (s : String) : Prop :=
  s ≠ "" ∧ (∀ c ∈ s.data, plainChar c) ∧ s.data.head? ≠ some '-'

instance plainNameDec (s : String) : Decidable (plainName s) :=
  decidable_of_iff
    (s ≠ "" ∧ (∀ c ∈ s.data, plainChar c) ∧ s.data.head? ≠ some '-') Iff.rfl

/-- The shape of one catalogue-file line below the header. -/
inductive YamlLine where
  | category (name : String)
  | item (id : String)

/-- Classify a line: `"  - id"` is an identifier entry, `"  name:"` a
category header. -/
def lineShapeOf (l : String) : Option YamlLine :=
  if l.data.take 4 = "  - ".data then some (.item (String.mk (l.data.drop 4)))
  else if l.data.take 2 = "  ".data ∧ 2 < l.data.length
      ∧ l.data.getLast? = some ':' then
    some (.category (String.mk ((l.data.drop 2).dropLast)))
  else none

/-- Whether a line is an identifier entry. -/
def isItemLine (l : String) : Bool :=
  match lineShapeOf l with
  | some (.item _) => true
  | _ => false

/-- The identifier of an item line. -/
def itemIdOf (l : String) : String := String.mk (l.data.drop 4)

/-- Parse the lines below the `catalogue:` header: a category line
followed by its run of item lines, repeated. -/
def parseBody : List String → Option Catalogue
  | [] => some []
  | l :: ls =>
    match lineShapeOf l with
    | some (YamlLine.category name) =>
      (parseBody (ls.dropWhile isItemLine)).map fun rest =>
        (name, (ls.takeWhile isItemLine).map itemIdOf) :: rest
    | _ => none
termination_by l => l.length
decreasing_by
  simp only [List.length_cons]
  have hle : ∀ (l : List String), (l.dropWhile isItemLine).length ≤ l.length := by
    intro l
    induction l with
    | nil => simp
    | cons a t ih =>
      rw [List.dropWhile_cons]
      split
      · exact Nat.le_succ_of_le ih
      · simp
  exact Nat.lt_succ_of_le (hle ls)

/-- `load_catalogue`: `yaml.safe_load` of a catalogue-shaped file
followed by `data.get('catalogue', {})`, for the emitted subset described
above. -/
def load_catalogue (lines : List String) : Option Catalogue :=
  match lines with
  | l :: ls => if l = "catalogue:" then parseBody ls else none
  | [] => none

/-- The lines `yaml.dump(data, default_flow_style=False,
sort_keys=False)` writes for the catalogue mapping, in insertion
order. -/
def store_catalogue (ctl : Catalogue) : List String :=
  "catalogue:" :: ctl.flatMap fun p =>
    ("  " ++ p.1 ++ ":") :: p.2.map (fun id => "  - " ++ id)

/-! ## Theorems -/

/-- C1: Catalogue mode computes matches as exactly the (category,
package identifier) pairs whose identifier occurs both in that catalogue
category's list and in the installed-package list, iterating categories
and identifiers in catalogue order; for catalogue
`{bloat: [com.a, com.b]}` and installed packages `[com.a, com.c]` the
match list is `[(bloat, com.a)]`, and after the operator confirms,
exactly one uninstall call is issued, for `com.a`. -/
theorem catalogue_mode_matches :
    (∀ (ctl : Catalogue) (installed : List String) (c p : String),
      (c, p) ∈ mainMatches ctl installed ↔
        ∃ ps, (c, ps) ∈ ctl ∧ p ∈ ps ∧ p ∈ installed) ∧
    mainMatches [("bloat", ["com.a", "com.b"])] ["com.a", "com.c"]
      = [("bloat", "com.a")] ∧
    mainUninstallCalls [("bloat", ["com.a", "com.b"])] ["com.a", "com.c"] true
      = ["com.a"] := by
  refine ⟨?_, by decide, by decide⟩
  intro ctl installed c p
  constructor
  · intro h
    rw [mainMatches, List.mem_flatMap] at h
    obtain ⟨cp, hcp, hmem⟩ := h
    rw [List.mem_map] at hmem
    obtain ⟨q, hq, heq⟩ := hmem
    rw [List.mem_filter] at hq
    obtain ⟨hq1, hq2⟩ := hq
    obtain ⟨rfl, rfl⟩ := Prod.mk.injEq .. ▸ heq
    exact ⟨cp.2, hcp, hq1, by simpa using hq2⟩
  · rintro ⟨ps, hps, hp, hi⟩
    rw [mainMatches, List.mem_flatMap]
    exact ⟨(c, ps), hps,
      List.mem_map.mpr ⟨p, List.mem_filter.mpr ⟨hp, by simpa using hi⟩, rfl⟩⟩

/-- Witness for `catalogue_mode_matches`. -/
theorem catalogue_mode_matches_witness :
    ("bloat", "com.a") ∈ mainMatches [("bloat", ["com.a", "com.b"])] ["com.a", "com.c"] :=
  (catalogue_mode_matches.1 _ _ _ _).mpr
    ⟨["com.a", "com.b"], by decide, by decide, by decide⟩

/-- Splitting on a separator that does not occur yields the single
original piece (so Python's `[1]` subscript raises `IndexError`). -/
theorem splitChar_eq_single {sep : Char} : ∀ {cs : List Char}, sep ∉ cs →
    splitChar sep cs = [cs] := by
  intro cs h
  induction cs with
  | nil => rfl
  | cons c t ih =>
    rw [splitChar, ih (fun hm => h (List.mem_cons_of_mem c hm))]
    show (if c = sep then [[], t] else [c :: t]) = [c :: t]
    exact if_neg (by rintro rfl; exact h (List.mem_cons_self _ _))

/-- C5 (counterexample): a line without a colon does not merely lose that
line; the whole listing aborts and no identifiers at all are returned
(the `IndexError` escapes the comprehension). -/
theorem get_installed_packages_cex :
    get_installed_packages ["package:com.example.app", "badline"] = none ∧
    get_installed_packages ["package:com.example.app", "badline"]
      ≠ some ["com.example.app"] := by decide

/-- C5 (amended): a line `package:<id>` yields the identifier `<id>`
(`package:com.example.app` yields `com.example.app`); a line without a
colon is a parse error, and such an error on any line aborts the whole
listing with no identifiers returned; when every line parses, the
identifiers are returned in line order. -/
theorem get_installed_packages_parsing :
    parsePackageLine "package:com.example.app" = some "com.example.app" ∧
    (∀ l : String, ':' ∉ l.data → parsePackageLine l = none) ∧
    (∀ (lines : List String) (l : String), l ∈ lines →
      parsePackageLine l = none → get_installed_packages lines = none) ∧
    (∀ (lines : List String) (ids : List String),
      get_installed_packages lines = some ids →
      lines.map parsePackageLine = ids.map some) := by
  refine ⟨by decide, ?_, ?_, ?_⟩
  · intro l h
    rw [parsePackageLine, splitChar_eq_single h]
  · intro lines
    induction lines with
    | nil => intro l h; simp at h
    | cons a t ih =>
      intro l hl hnone
      rw [get_installed_packages]
      rcases List.mem_cons.mp hl with rfl | hm
      · rw [hnone]
      · rw [ih l hm hnone]
        cases parsePackageLine a <;> rfl
  · intro lines
    induction lines with
    | nil =>
      intro ids h
      rw [get_installed_packages] at h
      cases h
      rfl
    | cons a t ih =>
      intro ids h
      rw [get_installed_packages] at h
      cases ha : parsePackageLine a with
      | none => rw [ha] at h; cases h
      | some b =>
        rw [ha] at h
        cases ht : get_installed_packages t with
        | none => rw [ht] at h; cases h
        | some tids =>
          rw [ht] at h
          cases h
          simp [ha, ih tids ht]

/-- Witness for `get_installed_packages_parsing`. -/
theorem get_installed_packages_parsing_witness :
    get_installed_packages ["package:com.a", "badline"] = none :=
  get_installed_packages_parsing.2.2.1 ["package:com.a", "badline"] "badline"
    (by decide) (by decide)

/-- C6: Given focus text containing the focus marker, the first
whitespace-separated token containing a `/` is located (Python
`str.split()` separates on every kind of whitespace, tabs and newlines
included) and the substring before the `/` is returned; on
`mCurrentFocus=Window\x7ba1b2 u0 com.example.app/com.example.MainActivity\x7d`
the result is `com.example.app`, and on the tab-separated
`mCurrentFocus=x\ta/b` it is `a`.  If no token contains a `/`, or the
focus query fails (empty output), the result is null. -/
theorem current_app_extraction :
    get_current_app
        "mCurrentFocus=Window\x7ba1b2 u0 com.example.app/com.example.MainActivity\x7d"
      = some "com.example.app" ∧
    (∀ s : String, (∀ part ∈ focusTokens s, ¬ part.contains '/') →
      get_current_app s = none) ∧
    (∀ (s : String) (part : List Char), s ≠ "" →
      containsChars (stripChars s.data) "mCurrentFocus=".data = true →
      (focusTokens s).find? (fun t => t.contains '/') = some part →
      get_current_app s = some (String.mk ((splitChar '/' part).headD []))) ∧
    get_current_app "" = none ∧
    get_current_app "mCurrentFocus=x\ta/b" = some "a" := by
  refine ⟨by decide, ?_, ?_, by decide, by decide⟩
  · intro s h
    rw [get_current_app]
    split
    · rfl
    · show (if containsChars _ _ then _ else _) = _
      by_cases hc : containsChars (stripChars s.data) "mCurrentFocus=".data
      · rw [if_pos hc, List.find?_eq_none.mpr (fun x hx => by simpa using h x hx)]
      · rw [if_neg hc]
  · intro s part hne hc hf
    rw [get_current_app, if_neg hne, if_pos hc, hf]

/-- Witness for `current_app_extraction`. -/
theorem current_app_extraction_witness :
    get_current_app "mCurrentFocus=null window" = none :=
  current_app_extraction.2.1 "mCurrentFocus=null window" (by decide)

/-- Lookup skips an association-list segment that lacks the key. -/
theorem lookup_append_of_none {ctl : Catalogue} {k : String}
    (rest : Catalogue) (h : ctl.lookup k = none) :
    (ctl ++ rest).lookup k = rest.lookup k := by
  induction ctl with
  | nil => rfl
  | cons p t ih =>
    obtain ⟨a, b⟩ := p
    simp only [List.cons_append, List.lookup] at h ⊢
    cases hkb : (k == a)
    · simp only [hkb] at h ⊢
      exact ih h
    · simp only [hkb] at h
      exact Option.noConfusion h

/-- `setCat` stores the new list under the key it was given. -/
theorem setCat_lookup_self : ∀ (ctl : Catalogue) (k : String) (v : List String),
    (setCat ctl k v).lookup k = some v := by
  intro ctl k v
  induction ctl with
  | nil =>
    rw [setCat]
    simp only [List.lookup, beq_self_eq_true]
  | cons p t ih =>
    obtain ⟨a, b⟩ := p
    rw [setCat]
    split
    · simp only [List.lookup, beq_self_eq_true]
    · next hne =>
      simp only [List.lookup]
      cases hkb : (k == a)
      · simp only [hkb]
        exact ih
      · exact absurd (beq_iff_eq.mp hkb).symm hne

/-- `setCat` leaves every other key's binding unchanged. -/
theorem setCat_lookup_ne : ∀ (ctl : Catalogue) (k c : String) (v : List String),
    c ≠ k → (setCat ctl k v).lookup c = ctl.lookup c := by
  intro ctl k c v hck
  induction ctl with
  | nil =>
    rw [setCat]
    simp only [List.lookup]
    rw [show (c == k) = false from by simpa using hck]
  | cons p t ih =>
    obtain ⟨a, b⟩ := p
    rw [setCat]
    split
    · next he =>
      simp only [List.lookup, he]
      rw [show (c == k) = false from by simpa using hck]
    · simp only [List.lookup]
      cases hkb : (c == a)
      · simp only [hkb]
        exact ih
      · simp only [hkb]

/-- `setCat` on a key that is present keeps the category sequence. -/
theorem setCat_keys : ∀ (ctl : Catalogue) (k : String) (v ids : List String),
    ctl.lookup k = some ids → (setCat ctl k v).map Prod.fst = ctl.map Prod.fst := by
  intro ctl k v ids h
  induction ctl with
  | nil => cases h
  | cons p t ih =>
    obtain ⟨a, b⟩ := p
    simp only [List.lookup] at h
    rw [setCat]
    split
    · next he => simp [he]
    · next hne =>
      rw [show (k == a) = false from
        beq_eq_false_iff_ne.mpr (fun hh => hne hh.symm)] at h
      simp only [List.map_cons, ih h]

/-- `setCat` over a segment that lacks the key reaches the later
binding. -/
theorem setCat_append_of_none :
    ∀ (ctl : Catalogue) (k : String) (old v : List String),
    ctl.lookup k = none →
    setCat (ctl ++ [(k, old)]) k v = ctl ++ [(k, v)] := by
  intro ctl k old v h
  induction ctl with
  | nil => simp [setCat]
  | cons p t ih =>
    obtain ⟨a, b⟩ := p
    simp only [List.lookup] at h
    cases hkb : (k == a)
    · simp only [hkb] at h
      have hne : a ≠ k := (beq_eq_false_iff_ne.mp hkb).symm
      simp only [List.cons_append, setCat, if_neg hne, List.append_eq]
      rw [ih h]
    · simp only [hkb] at h
      exact Option.noConfusion h

/-- C7: appending an identifier already present in a catalogue category
is a no-op — the in-memory mapping is unchanged and the file is not
rewritten; when the identifier is absent it is appended at the end of
that category's list (creating the category at the end of the mapping if
missing) and the file is rewritten. -/
theorem update_catalogue_idempotent :
    (∀ (ctl : Catalogue) (package category : String) (ids : List String),
      ctl.lookup category = some ids → package ∈ ids →
      update_catalogue ctl package category = (ctl, false)) ∧
    (∀ (ctl : Catalogue) (package category : String) (ids : List String),
      ctl.lookup category = some ids → package ∉ ids →
      (update_catalogue ctl package category).2 = true ∧
      (update_catalogue ctl package category).1.lookup category
        = some (ids ++ [package]) ∧
      (∀ c : String, c ≠ category →
        (update_catalogue ctl package category).1.lookup c = ctl.lookup c) ∧
      (update_catalogue ctl package category).1.map Prod.fst
        = ctl.map Prod.fst) ∧
    (∀ (ctl : Catalogue) (package category : String),
      ctl.lookup category = none →
      update_catalogue ctl package category
        = (ctl ++ [(category, [package])], true)) := by
  refine ⟨?_, ?_, ?_⟩
  · intro ctl package category ids h hmem
    rw [update_catalogue]
    simp only [h, Option.isSome_some, if_true, Option.getD_some]
    rw [if_pos hmem]
  · intro ctl package category ids h hmem
    rw [update_catalogue]
    simp only [h, Option.isSome_some, if_true, Option.getD_some]
    rw [if_neg hmem]
    exact ⟨rfl, setCat_lookup_self ctl category (ids ++ [package]),
      fun c hc => setCat_lookup_ne ctl category c (ids ++ [package]) hc,
      setCat_keys ctl category (ids ++ [package]) ids h⟩
  · intro ctl package category h
    rw [update_catalogue]
    simp only [h, Option.isSome_none, Bool.false_eq_true, if_false]
    rw [lookup_append_of_none _ h]
    simp only [List.lookup, beq_self_eq_true, Option.getD_some, List.nil_append]
    rw [if_neg (by simp : package ∉ ([] : List String))]
    rw [setCat_append_of_none ctl category [] [package] h]

/-- Witness for `update_catalogue_idempotent`. -/
theorem update_catalogue_idempotent_witness :
    update_catalogue [("bloat", ["com.a"])] "com.a" "bloat"
      = ([("bloat", ["com.a"])], false) :=
  update_catalogue_idempotent.1 [("bloat", ["com.a"])] "com.a" "bloat"
    ["com.a"] (by decide) (by decide)

/-- The hunter-mode prompt list never repeats a package in two adjacent
prompts, and its first prompt differs from the starting `last_package`. -/
theorem hunterRun_chain_aux : ∀ (trace : List (Option String)) (last : Option String),
    (hunterRun last trace).Chain' (· ≠ ·) ∧
    (∀ p, (hunterRun last trace).head? = some p → some p ≠ last) := by
  intro trace
  induction trace with
  | nil =>
    intro last
    exact ⟨List.chain'_nil, fun p h => by cases h⟩
  | cons obs rest ih =>
    intro last
    cases obs with
    | none => exact ih last
    | some p =>
      by_cases hcond : p ≠ "" ∧ some p ≠ last
      · have hrun : hunterRun last (some p :: rest) = p :: hunterRun (some p) rest := by
          simp [hunterRun, hunterTick, if_pos hcond]
        rw [hrun]
        refine ⟨List.chain'_cons'.mpr ⟨?_, (ih (some p)).1⟩, ?_⟩
        · intro b hb he
          exact (ih (some p)).2 b hb (by rw [he])
        · intro q hq
          cases hq
          exact hcond.2
      · have hrun : hunterRun last (some p :: rest) = hunterRun last rest := by
          simp [hunterRun, hunterTick, if_neg hcond]
        rw [hrun]
        exact ih last

/-- C10: In hunter mode the last-observed package is updated to every
newly observed non-null foreground package before the operator is
prompted — the update does not depend on the operator's answer or the
uninstall outcome — and a null observation does not reset it; hence over
any observation trace no two consecutive prompts concern the same
package, so the same foreground package never triggers two prompts
without a different non-null package observed (and prompted) in
between. -/
theorem hunter_last_package :
    (∀ last, hunterTick last none = (last, false)) ∧
    (∀ (last : Option String) (p : String), p ≠ "" → some p ≠ last →
      hunterTick last (some p) = (some p, true)) ∧
    (∀ (last : Option String) (trace : List (Option String)),
      (hunterRun last trace).Chain' (· ≠ ·)) := by
  refine ⟨fun last => rfl, ?_, fun last trace => (hunterRun_chain_aux trace last).1⟩
  intro last p h1 h2
  simp [hunterTick, if_pos (⟨h1, h2⟩ : _ ∧ _)]

/-- Witness for `hunter_last_package`. -/
theorem hunter_last_package_witness :
    hunterTick (some "com.a") (some "com.b") = (some "com.b", true) :=
  hunter_last_package.2.1 (some "com.a") "com.b" (by decide) (by decide)

/-- C9: In the backup-and-uninstall flow, when the APK pull fails
(`pull_apk` returned its `False` failure value rather than a path), no
uninstall call is issued and the whole state — app list, current page
and catalogue — is unchanged, whatever the typed index, the
confirmation answer, and the would-be uninstall outcome. -/
theorem backup_pull_failure_keeps_state :
    ∀ (s : ListState) (idx : Option Int) (confirmed ok : Bool),
      list_step s (ListEvent.backupUninstall idx confirmed none ok) = (s, []) := by
  intro s idx confirmed ok
  cases idx with
  | none => rfl
  | some n =>
    rw [list_step]
    split
    · split
      · simp
      · rfl
    · rfl

/-- The clamp in the uninstall flows keeps the page inside
`[1, max totalPages 1]`. -/
theorem afterUninstall_page (s : ListState) (i : Nat) (pkg : String)
    (hi : i < s.apps.length)
    (h1 : 1 ≤ s.page) (h2 : s.page ≤ max (totalPages s.apps) 1) :
    1 ≤ (afterUninstall s i pkg).page ∧
    (afterUninstall s i pkg).page ≤ max (totalPages (afterUninstall s i pkg).apps) 1 := by
  have hlen : (s.apps.eraseIdx i).length = s.apps.length - 1 := by
    rw [List.length_eraseIdx]
    simp [hi]
  simp only [afterUninstall, totalPages] at *
  rw [hlen]
  constructor
  · split <;> omega
  · split <;> omega

/-- C4 (counterexample): from the reachable state with exactly one
listed app on page 1, a confirmed successful uninstall of that app
leaves the current page at 1 while `total_pages` is recomputed to 0
(the clamp guard `total_pages > 0` fails), so the current page does
not stay within `[1, totalPages]`. -/
theorem list_pagination_cex :
    (list_step
        ⟨[{ initDetails "com.x" with install_time := some 5 }], 1, []⟩
        (ListEvent.uninstall (some 1) true true)).1.page = 1 ∧
    totalPages (list_step
        ⟨[{ initDetails "com.x" with install_time := some 5 }], 1, []⟩
        (ListEvent.uninstall (some 1) true true)).1.apps = 0 ∧
    ¬ ((list_step
        ⟨[{ initDetails "com.x" with install_time := some 5 }], 1, []⟩
        (ListEvent.uninstall (some 1) true true)).1.page
      ≤ totalPages (list_step
        ⟨[{ initDetails "com.x" with install_time := some 5 }], 1, []⟩
        (ListEvent.uninstall (some 1) true true)).1.apps) := by
  refine ⟨rfl, rfl, by decide⟩

/-- C4 (amended): with N apps and fixed page size 10 the total page
count is ceil(N/10) (23 apps give 3 pages); the `next` transition from
the last page and the `prev` transition from page 1 are no-ops; and
after every transition — including the uninstall and
backup-and-uninstall transitions that remove an entry, recompute total
pages and clamp — the current page stays within `[1, max(totalPages,
1)]`: it stays within `[1, totalPages]` as long as the list is
nonempty, but removing the last remaining entry leaves the page at 1
while totalPages drops to 0. -/
theorem list_pagination :
    (∀ apps : List PkgDetails, apps.length = 23 → totalPages apps = 3) ∧
    (∀ s : ListState, s.page = totalPages s.apps →
      list_step s ListEvent.next = (s, [])) ∧
    (∀ s : ListState, s.page = 1 → list_step s ListEvent.prev = (s, [])) ∧
    (∀ (s : ListState) (ev : ListEvent),
      1 ≤ s.page → s.page ≤ max (totalPages s.apps) 1 →
      1 ≤ (list_step s ev).1.page ∧
      (list_step s ev).1.page ≤ max (totalPages (list_step s ev).1.apps) 1) := by
  refine ⟨?_, ?_, ?_, ?_⟩
  · intro apps h
    simp [totalPages, h]
  · intro s h
    rw [list_step]
    rw [if_neg (by omega)]
  · intro s h
    rw [list_step]
    rw [if_neg (by omega)]
  · intro s ev h1 h2
    cases ev with
    | next =>
      rw [list_step]
      split
      · next hc =>
        refine ⟨?_, ?_⟩
        · show 1 ≤ s.page + 1
          omega
        · show s.page + 1 ≤ max (totalPages s.apps) 1
          omega
      · exact ⟨h1, h2⟩
    | prev =>
      rw [list_step]
      split
      · next hc =>
        refine ⟨?_, ?_⟩
        · show 1 ≤ s.page - 1
          omega
        · show s.page - 1 ≤ max (totalPages s.apps) 1
          omega
      · exact ⟨h1, h2⟩
    | quit => exact ⟨h1, h2⟩
    | other => exact ⟨h1, h2⟩
    | uninstall idx confirmed ok =>
      cases idx with
      | none => exact ⟨h1, h2⟩
      | some n =>
        rw [list_step]
        split
        · next hr =>
          split
          · split
            · exact afterUninstall_page s _ _ (by omega) h1 h2
            · exact ⟨h1, h2⟩
          · exact ⟨h1, h2⟩
        · exact ⟨h1, h2⟩
    | backupUninstall idx confirmed pullRes ok =>
      cases idx with
      | none => exact ⟨h1, h2⟩
      | some n =>
        rw [list_step]
        split
        · next hr =>
          split
          · split
            · split
              · exact afterUninstall_page s _ _ (by omega) h1 h2
              · exact ⟨h1, h2⟩
            · exact ⟨h1, h2⟩
          · exact ⟨h1, h2⟩
        · exact ⟨h1, h2⟩

/-- Witness for `list_pagination`. -/
theorem list_pagination_witness :
    totalPages (List.replicate 23 (initDetails "com.x")) = 3 :=
  list_pagination.1 (List.replicate 23 (initDetails "com.x")) (by simp)

/-- `descLe` is transitive. -/
theorem descLe_trans : ∀ a b c : PkgDetails,
    descLe a b = true → descLe b c = true → descLe a c = true := by
  intro a b c hab hbc
  simp only [descLe, decide_eq_true_eq] at *
  omega

/-- `descLe` is total. -/
theorem descLe_total : ∀ a b : PkgDetails, (descLe a b || descLe b a) = true := by
  intro a b
  simp only [descLe, Bool.or_eq_true, decide_eq_true_eq]
  omega

/-- A list that is a permutation of three elements with strictly
increasing keys and is sorted by key descending is exactly the reversed
triple. -/
theorem sortedDescEq3 {α : Type} (key : α → Int) (l : List α) (a b c : α)
    (hp : l.Perm [a, b, c]) (hs : l.Pairwise fun u v => key v ≤ key u)
    (hab : key a < key b) (hbc : key b < key c) : l = [c, b, a] := by
  have hlen : l.length = 3 := by simpa using hp.length_eq
  obtain ⟨x, y, z, rfl⟩ : ∃ x y z, l = [x, y, z] := by
    match l, hlen with
    | [x, y, z], _ => exact ⟨x, y, z, rfl⟩
  have h1 : key y ≤ key x ∧ key z ≤ key x ∧ key z ≤ key y := by
    simp [List.pairwise_cons] at hs
    tauto
  have hk : [key x, key y, key z].Perm [key a, key b, key c] := by
    simpa using hp.map key
  have hkeys : [key z, key y, key x] = [key a, key b, key c] := by
    apply List.eq_of_perm_of_sorted (r := (· ≤ ·))
    · have : [key z, key y, key x] = [key x, key y, key z].reverse := by simp
      rw [this]
      exact (List.reverse_perm _).trans hk
    · simp only [List.sorted_cons, List.mem_cons]
      constructor
      · intro v hv
        rcases hv with rfl | hv
        · exact h1.2.2
        · rcases hv with rfl | hv
          · exact h1.2.1
          · simp at hv
      · constructor
        · intro v hv
          rcases hv with rfl | hv
          · exact h1.1
          · simp at hv
        · simp
    · simp only [List.sorted_cons, List.mem_cons]
      refine ⟨fun v hv => ?_, fun v hv => ?_, ?_⟩
      · rcases hv with rfl | hv
        · omega
        · rcases hv with rfl | hv
          · omega
          · simp at hv
      · rcases hv with rfl | hv
        · omega
        · simp at hv
      · simp
  obtain ⟨e1, e2, e3⟩ : key z = key a ∧ key y = key b ∧ key x = key c := by
    simpa using hkeys
  have hx : x = c := by
    rcases (by simpa using hp.subset (show x ∈ [x, y, z] by simp) :
        x = a ∨ x = b ∨ x = c) with h | h | h
    · subst h; exact absurd e3 (by omega)
    · subst h; exact absurd e3 (by omega)
    · exact h
  have hy : y = b := by
    rcases (by simpa using hp.subset (show y ∈ [x, y, z] by simp) :
        y = a ∨ y = b ∨ y = c) with h | h | h
    · subst h; exact absurd e2 (by omega)
    · exact h
    · subst h; exact absurd e2 (by omega)
  have hz : z = a := by
    rcases (by simpa using hp.subset (show z ∈ [x, y, z] by simp) :
        z = a ∨ z = b ∨ z = c) with h | h | h
    · exact h
    · subst h; exact absurd e1 (by omega)
    · subst h; exact absurd e1 (by omega)
  rw [hx, hy, hz]

/-- Every element of the listing comes from an installed, non-reserved
package whose details carry a non-null install timestamp. -/
theorem mem_get_all_apps {details : String → Option PkgDetails}
    {installed : List String} {d : PkgDetails}
    (h : d ∈ get_all_apps_with_details details installed) :
    d.install_time.isSome = true ∧
    ∃ pkg, pkg ∈ installed ∧ isUserPackage pkg = true ∧ details pkg = some d := by
  rw [get_all_apps_with_details] at h
  have h2 := (List.mergeSort_perm _ descLe).mem_iff.mp h
  obtain ⟨pkg, hmem, heq⟩ := List.mem_filterMap.mp h2
  obtain ⟨hpkg, hu⟩ := List.mem_filter.mp hmem
  cases hd : details pkg with
  | none => rw [hd] at heq; cases heq
  | some d' =>
    simp only [hd] at heq
    by_cases hi : d'.install_time.isSome
    · rw [if_pos hi] at heq
      cases heq
      exact ⟨hi, pkg, hpkg, hu, hd⟩
    · rw [if_neg hi] at heq
      cases heq

/-- C2: `getAllAppsWithDetails` first drops every package whose
identifier starts with one of the reserved starts, then drops every
package whose detail fetch failed or whose install timestamp is null,
and returns the rest sorted by install timestamp descending: three
packages with install timestamps T1 < T2 < T3 come back in order
[T3, T2, T1], and a record with null install time is absent from the
result. -/
theorem date_sorted_listing :
    (∀ (details : String → Option PkgDetails) (installed : List String),
      (get_all_apps_with_details details installed).Pairwise
        (fun u v => instKey v ≤ instKey u)) ∧
    (∀ (details : String → Option PkgDetails) (installed : List String)
       (d : PkgDetails), d ∈ get_all_apps_with_details details installed →
      d.install_time.isSome = true ∧
      ∃ pkg, pkg ∈ installed ∧ isUserPackage pkg = true ∧ details pkg = some d) ∧
    (∀ (details : String → Option PkgDetails) (installed : List String)
       (d : PkgDetails), d.install_time = none →
      d ∉ get_all_apps_with_details details installed) ∧
    (∀ (details : String → Option PkgDetails) (p1 p2 p3 : String)
       (d1 d2 d3 : PkgDetails) (T1 T2 T3 : Int),
      isUserPackage p1 = true → isUserPackage p2 = true → isUserPackage p3 = true →
      details p1 = some d1 → details p2 = some d2 → details p3 = some d3 →
      d1.install_time = some T1 → d2.install_time = some T2 →
      d3.install_time = some T3 → T1 < T2 → T2 < T3 →
      get_all_apps_with_details details [p1, p2, p3] = [d3, d2, d1]) := by
  refine ⟨?_, fun details installed d h => mem_get_all_apps h, ?_, ?_⟩
  · intro details installed
    rw [get_all_apps_with_details]
    exact (List.sorted_mergeSort descLe_trans descLe_total _).imp
      (fun h => of_decide_eq_true h)
  · intro details installed d hnone hmem
    have := (mem_get_all_apps hmem).1
    rw [hnone] at this
    cases this
  · intro details p1 p2 p3 d1 d2 d3 T1 T2 T3 hu1 hu2 hu3 hd1 hd2 hd3 hT1 hT2 hT3 h12 h23
    have hfil : get_all_apps_with_details details [p1, p2, p3]
        = List.mergeSort [d1, d2, d3] descLe := by
      rw [get_all_apps_with_details]
      simp [List.filter_cons, hu1, hu2, hu3, List.filterMap_cons, hd1, hd2, hd3,
        hT1, hT2, hT3]
    rw [hfil]
    apply sortedDescEq3 instKey _ d1 d2 d3
    · exact List.mergeSort_perm [d1, d2, d3] descLe
    · exact (List.sorted_mergeSort descLe_trans descLe_total _).imp
        (fun h => of_decide_eq_true h)
    · simp [instKey, hT1, hT2]
      omega
    · simp [instKey, hT2, hT3]
      omega

/-- Witness for `date_sorted_listing`. -/
theorem date_sorted_listing_witness :
    get_all_apps_with_details
      (fun p =>
        if p = "org.one" then some { initDetails "org.one" with install_time := some 11 }
        else if p = "org.two" then some { initDetails "org.two" with install_time := some 22 }
        else if p = "org.three" then some { initDetails "org.three" with install_time := some 33 }
        else none)
      ["org.one", "org.two", "org.three"]
    = [{ initDetails "org.three" with install_time := some 33 },
       { initDetails "org.two" with install_time := some 22 },
       { initDetails "org.one" with install_time := some 11 }] :=
  date_sorted_listing.2.2.2 _ "org.one" "org.two" "org.three" _ _ _ 11 22 33
    (by decide) (by decide) (by decide) (by decide) (by decide) (by decide)
    rfl rfl rfl (by decide) (by decide)

/-- A whitespace character is not a digit. -/
theorem pyIsSpace_not_digit (c : Char) (h : pyIsSpace c = true) :
    c.isDigit = false := by
  simp [pyIsSpace, Char.isWhitespace] at h
  rcases h with ((((rfl | rfl) | rfl) | rfl) | rfl) | rfl <;> decide

/-- A digit is not the minus sign. -/
theorem digit_ne_dash (c : Char) (h : c.isDigit = true) : c ≠ '-' := by
  rintro rfl
  exact absurd h (by decide)

/-- A whitespace character is not the minus sign. -/
theorem pyIsSpace_ne_dash (c : Char) (h : pyIsSpace c = true) : c ≠ '-' := by
  rintro rfl
  exact absurd h (by decide)

/-- `stripChars` removes a whitespace run from each end and nothing
else. -/
theorem stripChars_decomp (cs : List Char) :
    ∃ lead trail, cs = lead ++ stripChars cs ++ trail ∧
      (∀ c ∈ lead, pyIsSpace c = true) ∧
      (∀ c ∈ trail, pyIsSpace c = true) := by
  refine ⟨cs.takeWhile pyIsSpace,
    ((cs.dropWhile pyIsSpace).reverse.takeWhile pyIsSpace).reverse,
    ?_, fun c hc => List.mem_takeWhile_imp hc,
    fun c hc => List.mem_takeWhile_imp (List.mem_reverse.mp hc)⟩
  conv_lhs => rw [← List.takeWhile_append_dropWhile pyIsSpace cs]
  rw [List.append_assoc]
  congr 1
  rw [stripChars]
  rw [← List.reverse_append, List.takeWhile_append_dropWhile, List.reverse_reverse]

/-- `takeYear4` fails whenever the text does not open with a digit. -/
theorem takeYear4_none_of_head (x : Char) (xs : List Char)
    (hx : x.isDigit = false) : takeYear4 (x :: xs) = none := by
  rcases xs with _ | ⟨b, _ | ⟨c2, _ | ⟨d, rest⟩⟩⟩
  · rfl
  · rfl
  · rfl
  · rw [takeYear4, if_neg (by simp [hx])]

/-- `takeYear4` consumes exactly four characters when it succeeds. -/
theorem takeYear4_snd {cs : List Char} {y : Nat} {rest : List Char}
    (h : takeYear4 cs = some (y, rest)) : rest = cs.drop 4 := by
  rcases cs with _ | ⟨a, _ | ⟨b, _ | ⟨c, _ | ⟨d, r⟩⟩⟩⟩
  · cases h
  · cases h
  · cases h
  · cases h
  · rw [takeYear4] at h
    by_cases hc : (a.isDigit && b.isDigit && c.isDigit && d.isDigit) = true
    · rw [if_pos hc] at h
      cases h
      rfl
    · rw [if_neg hc] at h
      cases h

/-- Every character of a run `digitsRun` accepts is a digit or an
underscore. -/
theorem digitsRun_chars : ∀ (cs : List Char) (prev : Bool),
    digitsRun prev cs = true → ∀ c ∈ cs, c.isDigit = true ∨ c = '_' := by
  intro cs
  induction cs with
  | nil => intro prev _ c hc; cases hc
  | cons a t ih =>
    intro prev h c hc
    rw [digitsRun] at h
    by_cases ha : a.isDigit = true
    · rw [if_pos ha] at h
      rcases List.mem_cons.mp hc with rfl | hc2
      · exact Or.inl ha
      · exact ih true h c hc2
    · rw [if_neg ha] at h
      by_cases hu : a = '_'
      · rw [if_pos hu] at h
        have h2 : prev = true ∧ digitsRun false t = true := by simpa using h
        rcases List.mem_cons.mp hc with rfl | hc2
        · exact Or.inr hu
        · exact ih false h2.2 c hc2
      · rw [if_neg hu] at h
        cases h

/-- A successful `pyIntDigits` means a nonempty digit-or-underscore
input. -/
theorem pyIntDigits_some {cs : List Char} {k : Nat}
    (h : pyIntDigits cs = some k) :
    cs ≠ [] ∧ ∀ c ∈ cs, c.isDigit = true ∨ c = '_' := by
  rw [pyIntDigits] at h
  by_cases hr : digitsRun false cs = true
  · refine ⟨?_, digitsRun_chars cs false hr⟩
    rintro rfl
    rw [show digitsRun false [] = false from rfl] at hr
    cases hr
  · rw [if_neg hr] at h
    cases h

/-- The formatted parse fails whenever the text does not open with a
digit. -/
theorem strptime_none_of_head (s : String) (x : Char) (xs : List Char)
    (hdata : s.data = x :: xs) (hx : x.isDigit = false) :
    strptimeYmdHms s = none := by
  rw [strptimeYmdHms, hdata, takeYear4_none_of_head x xs hx]

/-- Any string Python `int()` accepts is rejected by the formatted
parse: after optional surrounding whitespace it is a sign or a
digit-and-underscore run, so the `-` separator expected after the four
year digits never follows. -/
theorem strptime_none_of_pyInt (s : String) (n : Int) (h : pyIntOfStr s = some n) :
    strptimeYmdHms s = none := by
  obtain ⟨lead, trail, hdecomp, hlead, htrail⟩ := stripChars_decomp s.data
  rw [pyIntOfStr] at h
  cases hsc : stripChars s.data with
  | nil => rw [hsc] at h; cases h
  | cons c rest =>
    simp only [hsc] at h
    rw [hsc] at hdecomp
    cases lead with
    | cons w lw =>
      have hw : pyIsSpace w = true := hlead w (List.mem_cons_self w lw)
      exact strptime_none_of_head s w (lw ++ (c :: rest) ++ trail)
        (by simpa using hdecomp) (pyIsSpace_not_digit w hw)
    | nil =>
      simp only [List.nil_append] at hdecomp
      by_cases hp : c = '+'
      · subst hp
        exact strptime_none_of_head s '+' (rest ++ trail)
          (by simpa using hdecomp) (by decide)
      by_cases hm : c = '-'
      · subst hm
        exact strptime_none_of_head s '-' (rest ++ trail)
          (by simpa using hdecomp) (by decide)
      rw [if_neg hp, if_neg hm] at h
      cases hdg : pyIntDigits (c :: rest) with
      | none => rw [hdg] at h; cases h
      | some k =>
        have hdig := (pyIntDigits_some hdg).2
        rw [strptimeYmdHms, hdecomp]
        rcases hty : takeYear4 ((c :: rest) ++ trail) with _ | ⟨y0, r0⟩
        · rfl
        · have hr0 : r0 = ((c :: rest) ++ trail).drop 4 := takeYear4_snd hty
          show strptimeTail y0 r0 = none
          have hexp : expectChar '-' r0 = none := by
            rcases he : r0 with _ | ⟨e, es⟩
            · rfl
            · have hmem : e ∈ (c :: rest) ++ trail := by
                have he2 : e ∈ r0 := by rw [he]; simp
                rw [hr0] at he2
                exact List.mem_of_mem_drop he2
              rcases List.mem_append.mp hmem with hd | ht
              · rcases hdig e hd with hdigit | hunder
                · rw [expectChar, if_neg (digit_ne_dash e hdigit)]
                · rw [expectChar, if_neg (by subst hunder; decide)]
              · have hws : pyIsSpace e = true := htrail e ht
                rw [expectChar, if_neg (pyIsSpace_ne_dash e hws)]
          rw [strptimeTail, hexp]

/-- C3: Timestamp parsing in `get_package_details` accepts both the
formatted string `2024-01-15 10:30:45` and an epoch-milliseconds string
such as `1705318245000`; when the two forms denote the same moment
(the instant the milliseconds value names falls at the formatted civil
time in the local zone, `n + tz = v`) they parse to the same
instant-class value; and an ASCII value neither format accepts leaves
the field null — the parse is total and never throws.  The parsers
follow CPython at its boundaries: the format's space matches a
whitespace run, `int()` accepts underscore grouping (`1_000`), and
`%Y` consumes exactly four digits, so a three-digit year is
rejected. -/
theorem timestamp_parsing :
    (∀ tz : Int, parse_timestamp tz "2024-01-15 10:30:45"
        = some (datetimeCode 2024 1 15 10 30 45)) ∧
    (∀ tz : Int, parse_timestamp tz "1705318245000"
        = some (1705318245000 + tz)) ∧
    (∀ (tz v n : Int) (fs ms : String),
      strptimeYmdHms fs = some v → pyIntOfStr ms = some n → n + tz = v →
      parse_timestamp tz fs = some v ∧ parse_timestamp tz ms = some v) ∧
    (∀ (tz : Int) (s : String), (∀ c ∈ s.data, c.toNat < 128) →
      strptimeYmdHms s = none → pyIntOfStr s = none →
      parse_timestamp tz s = none) ∧
    (∀ tz : Int, parse_timestamp tz "2024-01-15  10:30:45"
        = some (datetimeCode 2024 1 15 10 30 45)) ∧
    (∀ tz : Int, parse_timestamp tz "1_000" = some (1000 + tz)) ∧
    strptimeYmdHms "999-12-31 10:00:00" = none := by
  refine ⟨?_, ?_, ?_, ?_, ?_, ?_, by decide⟩
  · intro tz
    rw [parse_timestamp, show strptimeYmdHms "2024-01-15 10:30:45"
      = some (datetimeCode 2024 1 15 10 30 45) from by decide]
  · intro tz
    rw [parse_timestamp, show strptimeYmdHms "1705318245000" = none from by decide,
      show pyIntOfStr "1705318245000" = some 1705318245000 from by decide]
    rfl
  · intro tz v n fs ms hf hm heq
    refine ⟨by rw [parse_timestamp, hf], ?_⟩
    rw [parse_timestamp, strptime_none_of_pyInt ms n hm, hm]
    simp [fromtimestampNaive, heq]
  · intro tz s _ h1 h2
    rw [parse_timestamp, h1, h2]
    rfl
  · intro tz
    rw [parse_timestamp, show strptimeYmdHms "2024-01-15  10:30:45"
      = some (datetimeCode 2024 1 15 10 30 45) from by decide]
  · intro tz
    rw [parse_timestamp, show strptimeYmdHms "1_000" = none from by decide,
      show pyIntOfStr "1_000" = some 1000 from by decide]
    rfl

/-- Witness for `timestamp_parsing`: in the UTC-1 zone the two spec
forms denote the same moment and parse to the same value. -/
theorem timestamp_parsing_witness :
    parse_timestamp (-3600000) "2024-01-15 10:30:45" = some 1705314645000 ∧
    parse_timestamp (-3600000) "1705318245000" = some 1705314645000 :=
  timestamp_parsing.2.2.1 (-3600000) 1705314645000 1705318245000
    "2024-01-15 10:30:45" "1705318245000" (by decide) (by decide) (by decide)

/-- Rebuilding a string from its characters is the identity. -/
theorem mkData : ∀ s : String, String.mk s.data = s := by
  intro s
  cases s
  rfl

/-- The characters of a category line. -/
theorem catLine_data (c : String) :
    ("  " ++ c ++ ":").data = ' ' :: ' ' :: (c.data ++ [':']) := by
  rw [String.data_append, String.data_append]
  rfl

/-- The characters of an item line. -/
theorem itemLine_data (id : String) :
    ("  - " ++ id).data = ' ' :: ' ' :: '-' :: ' ' :: id.data := by
  rw [String.data_append]
  rfl

/-- A category line for a plain name is classified as a category
header. -/
theorem lineShape_cat (c : String) (hc : plainName c) :
    lineShapeOf ("  " ++ c ++ ":") = some (YamlLine.category c) := by
  obtain ⟨hne, hall, hhead⟩ := hc
  obtain ⟨ch, ct, hcd⟩ : ∃ ch ct, c.data = ch :: ct := by
    cases hcdata : c.data with
    | nil => exact absurd (by rw [← mkData c, hcdata]) hne
    | cons ch ct => exact ⟨ch, ct, rfl⟩
  have hch : ch ≠ '-' := by
    rw [hcd] at hhead
    intro h
    exact hhead (by rw [h]; rfl)
  rw [lineShapeOf, catLine_data, hcd]
  rw [if_neg ?hitem]
  case hitem =>
    intro heq
    simp only [List.cons_append, List.take_succ_cons] at heq
    have : ch = '-' := by
      have := congrArg (fun l => l.get? 2) heq
      simpa using this
    exact hch this
  rw [if_pos ?hcat]
  case hcat =>
    refine ⟨?_, ?_, ?_⟩
    · rfl
    · simp
    · rw [show (' ' :: ' ' :: (ch :: ct ++ [':']))
          = (' ' :: ' ' :: ch :: ct) ++ [':'] from by simp]
      exact List.getLast?_concat _
  rw [show (' ' :: ' ' :: (ch :: ct ++ [':'])).drop 2 = (ch :: ct) ++ [':'] from rfl]
  rw [List.dropLast_concat, ← hcd, mkData]

/-- An item line is classified as an item carrying its identifier. -/
theorem lineShape_item (id : String) :
    lineShapeOf ("  - " ++ id) = some (YamlLine.item id) := by
  rw [lineShapeOf, itemLine_data]
  rw [if_pos (show List.take 4 (' ' :: ' ' :: '-' :: ' ' :: id.data)
    = "  - ".data from rfl)]
  rw [show (' ' :: ' ' :: '-' :: ' ' :: id.data).drop 4 = id.data from rfl, mkData]

/-- `isItemLine` holds on item lines. -/
theorem isItemLine_item (id : String) : isItemLine ("  - " ++ id) = true := by
  rw [isItemLine, lineShape_item]

/-- `isItemLine` fails on category lines for plain names. -/
theorem isItemLine_cat (c : String) (hc : plainName c) :
    isItemLine ("  " ++ c ++ ":") = false := by
  rw [isItemLine, lineShape_cat c hc]

/-- The identifier of a built item line. -/
theorem itemId_of_item (id : String) : itemIdOf ("  - " ++ id) = id := by
  rw [itemIdOf, itemLine_data]
  rw [show (' ' :: ' ' :: '-' :: ' ' :: id.data).drop 4 = id.data from rfl, mkData]

/-- `takeWhile`/`dropWhile` split an all-matching run followed by a
non-matching head. -/
theorem takeWhile_middle {α : Type} (p : α → Bool) : ∀ (l1 l2 : List α),
    (∀ x ∈ l1, p x = true) → (∀ y, l2.head? = some y → p y = false) →
    (l1 ++ l2).takeWhile p = l1 ∧ (l1 ++ l2).dropWhile p = l2 := by
  intro l1
  induction l1 with
  | nil =>
    intro l2 _ h2
    cases l2 with
    | nil => exact ⟨rfl, rfl⟩
    | cons y t =>
      have hy := h2 y rfl
      simp [List.takeWhile_cons, List.dropWhile_cons, hy]
  | cons a t ih =>
    intro l2 h1 h2
    have ha := h1 a (List.mem_cons_self a t)
    have iht := ih l2 (fun x hx => h1 x (List.mem_cons_of_mem a hx)) h2
    simp only [List.cons_append, List.takeWhile_cons, List.dropWhile_cons, ha,
      if_true]
    exact ⟨by rw [iht.1], iht.2⟩

/-- Parsing the stored body of a well-formed catalogue recovers it. -/
theorem parseBody_store : ∀ ctl : Catalogue,
    (∀ p ∈ ctl, plainName p.1 ∧ ∀ id ∈ p.2, plainName id) →
    parseBody (ctl.flatMap fun p =>
      ("  " ++ p.1 ++ ":") :: p.2.map (fun id => "  - " ++ id)) = some ctl := by
  intro ctl
  induction ctl with
  | nil =>
    intro _
    simp only [List.flatMap_nil]
    rw [parseBody]
  | cons p t ih =>
    intro hwf
    obtain ⟨c, ids⟩ := p
    have hc : plainName c := (hwf (c, ids) (List.mem_cons_self _ t)).1
    have hids : ∀ id ∈ ids, plainName id := (hwf (c, ids) (List.mem_cons_self _ t)).2
    have hwt : ∀ q ∈ t, plainName q.1 ∧ ∀ id ∈ q.2, plainName id :=
      fun q hq => hwf q (List.mem_cons_of_mem _ hq)
    have hhead : ∀ y, (t.flatMap fun p =>
        ("  " ++ p.1 ++ ":") :: p.2.map (fun id => "  - " ++ id)).head? = some y →
        isItemLine y = false := by
      cases t with
      | nil => intro y hy; cases hy
      | cons q t2 =>
        intro y hy
        simp only [List.flatMap_cons, List.cons_append, List.head?_cons,
          Option.some.injEq] at hy
        rw [← hy]
        exact isItemLine_cat q.1 (hwt q (List.mem_cons_self _ t2)).1
    have hitems : ∀ x ∈ ids.map (fun id => "  - " ++ id), isItemLine x = true := by
      intro x hx
      obtain ⟨id, _, rfl⟩ := List.mem_map.mp hx
      exact isItemLine_item id
    have hsplit := takeWhile_middle isItemLine (ids.map fun id => "  - " ++ id)
      (t.flatMap fun p => ("  " ++ p.1 ++ ":") :: p.2.map (fun id => "  - " ++ id))
      hitems hhead
    have hmap : (ids.map (fun id => "  - " ++ id)).map itemIdOf = ids := by
      rw [List.map_map]
      have hcg : ∀ id ∈ ids, (itemIdOf ∘ fun id => "  - " ++ id) id = id :=
        fun id _ => itemId_of_item id
      rw [List.map_congr_left hcg]
      simp
    simp only [List.flatMap_cons, List.cons_append]
    rw [parseBody]
    simp only [lineShape_cat c hc]
    rw [hsplit.1, hsplit.2, ih hwt]
    simp only [hmap]
    rfl

/-- C8: Loading a stored catalogue (the whole-file rewrite performed by
`update_catalogue` through `yaml.dump(..., default_flow_style=False,
sort_keys=False)`) reproduces exactly the same category-to-identifier
mapping: existing categories keep their insertion order and every
category keeps the order of its identifiers.  The hypotheses say the
names are plain scalars, every category is nonempty, and no category
holds duplicate identifiers. -/
theorem catalogue_roundtrip :
    ∀ ctl : Catalogue,
      (∀ p ∈ ctl, plainName p.1 ∧ p.2 ≠ [] ∧ p.2.Nodup ∧
        ∀ id ∈ p.2, plainName id) →
      load_catalogue (store_catalogue ctl) = some ctl := by
  intro ctl hwf
  rw [store_catalogue, load_catalogue]
  rw [if_pos rfl]
  exact parseBody_store ctl (fun p hp => ⟨(hwf p hp).1, (hwf p hp).2.2.2⟩)

/-- Witness for `catalogue_roundtrip`. -/
theorem catalogue_roundtrip_witness :
    load_catalogue (store_catalogue
      [("bloat", ["com.a", "com.b"]), ("hunter", ["org.x"])])
    = some [("bloat", ["com.a", "com.b"]), ("hunter", ["org.x"])] :=
  catalogue_roundtrip [("bloat", ["com.a", "com.b"]), ("hunter", ["org.x"])]
    (by decide)

end Pamuk
